import Mathlib

set_option maxRecDepth 4000

/-!
Shallow embedding of the dcgmi_tui telemetry dashboard (src/main.rs).

Modelling conventions: an f64 value is modelled exactly as a finite rational
(ignoring binary rounding) or one of the special values +infinity, -infinity
and NaN, which Rust float parsing and arithmetic can produce.  usize values
are Nat.  Strings are Lean strings; Rust split_whitespace is implemented
over the character list.
-/

/-- Model of an f64 value: a finite rational, an infinity, or NaN. -/
inductive F64 where
  | finite (q : ℚ)
  | inf
  | negInf
  | nan
deriving DecidableEq, Repr

/-- f64 negation. -/
def F64.neg : F64 → F64
  | .finite q => .finite (-q)
  | .inf => .negInf
  | .negInf => .inf
  | .nan => .nan

/-- f64 addition (IEEE special-value rules; finite arithmetic is exact). -/
def F64.add : F64 → F64 → F64
  | .nan, _ => .nan
  | _, .nan => .nan
  | .inf, .negInf => .nan
  | .negInf, .inf => .nan
  | .inf, _ => .inf
  | _, .inf => .inf
  | .negInf, _ => .negInf
  | _, .negInf => .negInf
  | .finite a, .finite b => .finite (a + b)

/-- f64 multiplication (IEEE special-value rules; finite arithmetic is exact). -/
def F64.mul : F64 → F64 → F64
  | .nan, _ => .nan
  | _, .nan => .nan
  | .inf, .inf => .inf
  | .inf, .negInf => .negInf
  | .negInf, .inf => .negInf
  | .negInf, .negInf => .inf
  | .inf, .finite b => if 0 < b then .inf else if b < 0 then .negInf else .nan
  | .finite a, .inf => if 0 < a then .inf else if a < 0 then .negInf else .nan
  | .negInf, .finite b => if 0 < b then .negInf else if b < 0 then .inf else .nan
  | .finite a, .negInf => if 0 < a then .negInf else if a < 0 then .inf else .nan
  | .finite a, .finite b => .finite (a * b)

/-- f64 division (IEEE special-value rules; finite arithmetic is exact). -/
def F64.div : F64 → F64 → F64
  | .nan, _ => .nan
  | _, .nan => .nan
  | .inf, .inf => .nan
  | .inf, .negInf => .nan
  | .negInf, .inf => .nan
  | .negInf, .negInf => .nan
  | .inf, .finite b => if b < 0 then .negInf else .inf
  | .negInf, .finite b => if b < 0 then .inf else .negInf
  | .finite _, .inf => .finite 0
  | .finite _, .negInf => .finite 0
  | .finite a, .finite b =>
      if b = 0 then (if 0 < a then .inf else if a < 0 then .negInf else .nan)
      else .finite (a / b)

/-- f64 comparison a less-or-equal b; any comparison with NaN is false. -/
def F64.le : F64 → F64 → Bool
  | .nan, _ => false
  | _, .nan => false
  | .negInf, _ => true
  | _, .negInf => false
  | _, .inf => true
  | .inf, _ => false
  | .finite a, .finite b => decide (a ≤ b)

/-- f64 strict comparison a less-than b; any comparison with NaN is false. -/
def F64.lt : F64 → F64 → Bool
  | .nan, _ => false
  | _, .nan => false
  | .inf, _ => false
  | _, .inf => true
  | _, .negInf => false
  | .negInf, _ => true
  | .finite a, .finite b => decide (a < b)

/-- Models a.partial_cmp(b).unwrap_or(Ordering.Equal): NaN compares Equal,
otherwise the usual total order on the extended reals. -/
def F64.cmpOr (x y : F64) : Ordering :=
  if x = F64.nan ∨ y = F64.nan then Ordering.eq
  else if F64.lt x y then Ordering.lt
  else if F64.lt y x then Ordering.gt
  else Ordering.eq

/-- Numeric value of an ASCII digit character. -/
def digitVal (c : Char) : ℕ := c.toNat - ('0').toNat

/-- Value of a string of decimal digits, most significant first. -/
def digitsToNat (ds : List Char) : ℕ := ds.foldl (fun acc c => 10 * acc + digitVal c) 0

/-- Splits a character list at the first exponent marker e or E, returning
the part before it and, when the marker occurs, the part after it. -/
def splitAtExp : List Char → List Char × Option (List Char)
  | [] => ([], none)
  | c :: cs =>
    if c = 'e' ∨ c = 'E' then ([], some cs)
    else
      let r := splitAtExp cs
      (c :: r.1, r.2)

/-- Splits a character list at the first decimal point, returning the part
before it and, when a point occurs, the part after it. -/
def splitAtDot : List Char → List Char × Option (List Char)
  | [] => ([], none)
  | c :: cs =>
    if c = '.' then ([], some cs)
    else
      let r := splitAtDot cs
      (c :: r.1, r.2)

/-- Parses an exponent suffix: an optional sign followed by one or more digits. -/
def parseExp : List Char → Option ℤ
  | '+' :: ds =>
      if ds ≠ [] ∧ ds.all Char.isDigit then some (Int.ofNat (digitsToNat ds)) else none
  | '-' :: ds =>
      if ds ≠ [] ∧ ds.all Char.isDigit then some (-(digitsToNat ds : ℤ)) else none
  | ds =>
      if ds ≠ [] ∧ ds.all Char.isDigit then some (Int.ofNat (digitsToNat ds)) else none

/-- Parses the body of a float literal after any sign, following the grammar
of Rust f64 from_str: inf, infinity and nan (case-insensitive), or
digits with an optional decimal point and an optional exponent. -/
def parseF64Unsigned (cs : List Char) : Option F64 :=
  let lower := cs.map Char.toLower
  if lower = ("inf").data ∨ lower = ("infinity").data then some F64.inf
  else if lower = ("nan").data then some F64.nan
  else
    let me := splitAtExp cs
    let idp := splitAtDot me.1
    let ip := idp.1
    let fp := (idp.2).getD []
    if (ip ++ fp) ≠ [] ∧ (ip ++ fp).all Char.isDigit then
      let base : ℚ := (digitsToNat (ip ++ fp) : ℚ) / (10 : ℚ) ^ fp.length
      match me.2 with
      | none => some (F64.finite base)
      | some es =>
        match parseExp es with
        | none => none
        | some e => some (F64.finite (base * (10 : ℚ) ^ e))
    else none

/-- Models Rust str.parse::<f64>().ok(): an optional sign followed by the
unsigned float body.  Finite literals are taken at their exact rational
value (f64 rounding and overflow to infinity are not modelled). -/
def parseF64 (s : String) : Option F64 :=
  match s.data with
  | [] => none
  | '+' :: rest => parseF64Unsigned rest
  | '-' :: rest => Option.map F64.neg (parseF64Unsigned rest)
  | cs => parseF64Unsigned cs

/-- Worker for split_whitespace: walks the characters keeping the current
word accumulator reversed. -/
def splitWsAux : List Char → List Char → List String
  | [], acc => if acc.isEmpty then [] else [String.mk acc.reverse]
  | c :: cs, acc =>
    if c.isWhitespace then
      if acc.isEmpty then splitWsAux cs [] else String.mk acc.reverse :: splitWsAux cs []
    else splitWsAux cs (c :: acc)

/-- Models Rust str.split_whitespace(): maximal runs of non-whitespace
characters, with empty words dropped. -/
def split_whitespace (s : String) : List String := splitWsAux s.data []

/-- The parts vector of parse_metric_line (src/main.rs line 103): the
whitespace tokens of the line with the first one skipped. -/
def lineFields (line : String) : List String := (split_whitespace line).drop 1

/-- Embeds parse_metric_line from src/main.rs: accept only lines whose text
starts with the literal prefix GPU 0; split on whitespace and skip the
first token; require exactly 13 remaining tokens; parse every token as an
f64 and require all 13 to parse; on success drop the first parsed value
(the duplicated entity id) and return the remaining 12. -/
def parse_metric_line (line : String) : Option (List F64) :=
  if (("GPU 0").data).isPrefixOf line.data then
    if (lineFields line).length = 13 then
      let values : List F64 := (lineFields line).filterMap parseF64
      if values.length = 13 then some (values.drop 1) else none
    else none
  else none

/-- HISTORY_LEN from src/main.rs. -/
def HISTORY_LEN : ℕ := 100

/-- Embeds one push into a metric history buffer (src/main.rs lines 160-165):
if the buffer has reached HISTORY_LEN entries, pop the front (oldest)
element, then push the value at the back. -/
def pushHistory (buf : List F64) (val : F64) : List F64 :=
  (if HISTORY_LEN ≤ buf.length then buf.tail else buf) ++ [val]

/-- A whole sequence of pushes into one metric buffer, starting empty. -/
def runPushes (vals : List F64) : List F64 := vals.foldl pushHistory []

/-- Pushes a parsed record value-by-value into the per-metric buffers
(the enumerate loop of src/main.rs lines 160-166). -/
def pushAll : List (List F64) → List F64 → List (List F64)
  | hist, [] => hist
  | [], _ :: _ => []
  | b :: rest, v :: vs => pushHistory b v :: pushAll rest vs

/-- The initial history table: 12 empty buffers (src/main.rs line 154). -/
def initialHistory : List (List F64) := List.replicate 12 ([] : List F64)

/-- Processing of one input line by the ingest part of the main loop:
a line that parses is pushed into the history table, any other line
leaves it unchanged. -/
def ingestLine (hist : List (List F64)) (line : String) : List (List F64) :=
  match parse_metric_line line with
  | none => hist
  | some vals => pushAll hist vals

/-- Processing of a whole sequence of input lines, one per loop iteration,
starting from the initial history table. -/
def ingestLines (ls : List String) : List (List F64) := ls.foldl ingestLine initialHistory

/-- The rank computed by percentile in src/main.rs line 76:
(pct as f64 / 100.0) * ((sorted.len() - 1) as f64), with the usize
subtraction len - 1 modelled as Nat subtraction. -/
def rankOf (pct n : ℕ) : ℚ := (pct : ℚ) / 100 * ((n - 1 : ℕ) : ℚ)

/-- The index rank.floor() as usize from src/main.rs line 77. -/
def lowIndex (pct n : ℕ) : ℕ := (⌊rankOf pct n⌋).toNat

/-- The index rank.ceil() as usize from src/main.rs line 78. -/
def highIndex (pct n : ℕ) : ℕ := (⌈rankOf pct n⌉).toNat

/-- Embeds percentile from src/main.rs lines 72-85.  Rust indexing
sorted[i] panics when out of bounds; it is modelled with a default, and
the in-bounds discipline of the call sites is established separately. -/
def percentile (sorted : List F64) (pct : ℕ) : F64 :=
  if sorted.isEmpty then F64.finite 0
  else
    let rank := rankOf pct sorted.length
    let low := lowIndex pct sorted.length
    let high := highIndex pct sorted.length
    if low = high then sorted.getD low (F64.finite 0)
    else
      let weight : ℚ := rank - (low : ℚ)
      F64.add (F64.mul (sorted.getD low (F64.finite 0)) (F64.finite (1 - weight)))
        (F64.mul (sorted.getD high (F64.finite 0)) (F64.finite weight))

/-- Follows the words of the spec, section 4.3, for the refinement claim:
rank = (p/100) x (count-1); lowIndex = floor(rank), highIndex = ceil(rank);
if they are equal return values[lowIndex]; else linearly interpolate
between values[lowIndex] and values[highIndex] weighted by the fractional
part of rank; return 0 for an empty input. -/
def percentileSpec (values : List ℚ) (p : ℕ) : ℚ :=
  if values = [] then 0
  else
    let rank : ℚ := (p : ℚ) / 100 * ((values.length : ℚ) - 1)
    if ⌊rank⌋ = ⌈rank⌉ then values.getD (⌊rank⌋).toNat 0
    else
      let frac : ℚ := rank - ⌊rank⌋
      values.getD (⌊rank⌋).toNat 0 * (1 - frac) + values.getD (⌈rank⌉).toNat 0 * frac

/-- Models sorted.sort_by(partial_cmp.unwrap_or(Equal)) from src/main.rs
line 192 as an insertion sort under the derived total preorder; on
NaN-free input (the only input the program produces, since NaN is never
strictly positive) any comparison sort yields this result. -/
def sortF64 (l : List F64) : List F64 :=
  List.insertionSort (fun a b => F64.cmpOr a b ≠ Ordering.gt) l

/-- The list handed to percentile for one metric in src/main.rs lines
191-192: the current history filtered to strictly positive values, then
sorted ascending. -/
def sortedPositives (hist : List F64) : List F64 :=
  sortF64 (hist.filter (fun v => F64.lt (F64.finite 0) v))

/-- The percentile triple computed per metric in src/main.rs lines 193-201:
(0, 0, 0) when the filtered history is empty, otherwise the 50th, 90th and
99th percentiles of the sorted positive values. -/
def statsTriple (hist : List F64) : F64 × F64 × F64 :=
  let sorted := sortedPositives hist
  if sorted.isEmpty then (F64.finite 0, F64.finite 0, F64.finite 0)
  else (percentile sorted 50, percentile sorted 90, percentile sorted 99)

/-- Rounds a rational to an integer, ties to even, as Rust fixed-precision
float formatting does at the last kept digit. -/
def roundHalfEven (q : ℚ) : ℤ :=
  if q - ⌊q⌋ < 1/2 then ⌊q⌋
  else if 1/2 < q - ⌊q⌋ then ⌊q⌋ + 1
  else if ⌊q⌋ % 2 = 0 then ⌊q⌋ else ⌊q⌋ + 1

/-- Pads a digit string on the left with zeros up to the given length. -/
def padLeftZeros (s : String) (len : ℕ) : String :=
  if s.length < len then String.mk (List.replicate (len - s.length) '0') ++ s else s

/-- Renders a rational with exactly prec digits after the decimal point,
rounding ties to even, as Rust format with fixed precision does. -/
def formatQFixed (q : ℚ) (prec : ℕ) : String :=
  let n : ℤ := roundHalfEven (q * (10 : ℚ) ^ prec)
  let sign : String := if n < 0 then "-" else ""
  let digits : String := padLeftZeros (toString n.natAbs) (prec + 1)
  if prec = 0 then sign ++ digits
  else sign ++ digits.take (digits.length - prec) ++ "." ++ digits.drop (digits.length - prec)

/-- Rust fixed-precision formatting of an f64: finite values by decimal
rounding, with inf and NaN rendered by their display names. -/
def formatF64Fixed : F64 → ℕ → String
  | F64.finite q, prec => formatQFixed q prec
  | F64.inf, _ => "inf"
  | F64.negInf, _ => "-inf"
  | F64.nan, _ => "NaN"

/-- Embeds format_bytes_with_unit from src/main.rs lines 39-70: pick the
largest power-of-1024 unit whose threshold the value reaches, divide by
it, and render with 2 decimals for scaled units and 0 decimals for raw
bytes, with a per-second suffix when per_sec is set. -/
def format_bytes_with_unit (value : F64) (per_sec : Bool) : String :=
  let KB : ℚ := 1024
  let MB : ℚ := KB * 1024
  let GB : ℚ := MB * 1024
  let TB : ℚ := GB * 1024
  let numUnit : F64 × String :=
    if F64.le (F64.finite TB) value then (F64.div value (F64.finite TB), "TB")
    else if F64.le (F64.finite GB) value then (F64.div value (F64.finite GB), "GB")
    else if F64.le (F64.finite MB) value then (F64.div value (F64.finite MB), "MB")
    else if F64.le (F64.finite KB) value then (F64.div value (F64.finite KB), "KB")
    else (value, "B")
  if numUnit.2 = "B" then
    if per_sec then formatF64Fixed numUnit.1 0 ++ " B/s" else formatF64Fixed numUnit.1 0 ++ " B"
  else
    if per_sec then formatF64Fixed numUnit.1 2 ++ " " ++ numUnit.2 ++ "/s"
    else formatF64Fixed numUnit.1 2 ++ " " ++ numUnit.2

/-- Uniform linear interpolation of a sorted value list at a fractional
index: the value at the floor index plus the fractional part times the
step to the next value.  At an integral index the fractional part is 0
and the second summand vanishes, so this agrees with both branches of the
percentile code; used to reason about its monotonicity. -/
def interpAt (vs : List ℚ) (r : ℚ) : ℚ :=
  vs.getD (⌊r⌋).toNat 0 + (r - ⌊r⌋) * (vs.getD ((⌊r⌋).toNat + 1) 0 - vs.getD (⌊r⌋).toNat 0)

/-- Whether the logger worker thread of src/main.rs lines 115-127 is still
running.  A Rust panic unwinds only its own thread, so the expect on the
File::create result inside the spawned closure can only end the worker. -/
inductive LoggerState where
  | running
  | dead
deriving DecidableEq, Repr

/-- Models spawn_logger_thread from src/main.rs lines 115-127: the channel
Sender is returned immediately; the File::create(path).expect(...) call
runs inside the spawned worker, so when the open fails only the worker
thread dies (its panic does not propagate to the main thread). -/
def spawn_logger_thread (openOk : Bool) : LoggerState :=
  if openOk then LoggerState.running else LoggerState.dead

/-- Models one record handled by the logger worker loop (src/main.rs lines
120-124): writeln to the file followed by .ok() discards the write result,
so the worker state does not depend on whether the write succeeded. -/
def loggerHandleRecord : LoggerState → Bool → LoggerState
  | LoggerState.dead, _ => LoggerState.dead
  | LoggerState.running, _ => LoggerState.running

/-- The state reached by main after the logger is spawned (src/main.rs
lines 129-157). -/
structure StartupResult where
  loggerState : Option LoggerState
  entersRenderLoop : Bool
deriving DecidableEq, Repr

/-- Models the startup path of main (src/main.rs lines 129-157): the
logger is spawned only when a log file is requested, and nothing between
the spawn and the loop head inspects the logger or waits for it, so main
reaches the render loop in every case. -/
def mainStartup (logFile : Option String) (openOk : Bool) : StartupResult :=
  { loggerState := logFile.map (fun _ => spawn_logger_thread openOk)
  , entersRenderLoop := true }

/-- Helper: a fold of pushes over a buffer that is within capacity keeps
exactly the most recent HISTORY_LEN values of the concatenated stream. -/
theorem foldl_pushHistory_eq (vals : List F64) :
    ∀ buf : List F64, buf.length ≤ HISTORY_LEN →
      List.foldl pushHistory buf vals =
        (buf ++ vals).drop (buf.length + vals.length - HISTORY_LEN) := by
  induction vals with
  | nil =>
      intro buf h
      simp only [List.foldl_nil, List.append_nil, List.length_nil, Nat.add_zero]
      rw [Nat.sub_eq_zero_of_le h, List.drop_zero]
  | cons v tl ih =>
      intro buf h
      by_cases hb : HISTORY_LEN ≤ buf.length
      · have hlen : buf.length = HISTORY_LEN := Nat.le_antisymm h hb
        have hne : buf ≠ [] := by
          intro hnil
          rw [hnil] at hlen
          simp [HISTORY_LEN] at hlen
        obtain ⟨a, rest, rfl⟩ := List.exists_cons_of_ne_nil hne
        have hlc : rest.length + 1 = HISTORY_LEN := by simpa using hlen
        have hpush : pushHistory (a :: rest) v = rest ++ [v] := by
          unfold pushHistory
          rw [if_pos hb]
          rfl
        have hrest : (rest ++ [v]).length ≤ HISTORY_LEN := by
          simp only [List.length_append, List.length_cons, List.length_nil]
          omega
        rw [List.foldl_cons, hpush, ih (rest ++ [v]) hrest]
        have e1 : (rest ++ [v]).length + tl.length - HISTORY_LEN = tl.length := by
          simp only [List.length_append, List.length_cons, List.length_nil]
          omega
        have e2 : (a :: rest).length + (v :: tl).length - HISTORY_LEN = tl.length + 1 := by
          simp only [List.length_cons]
          omega
        rw [e1, e2]
        have e3 : (a :: rest) ++ v :: tl = a :: (rest ++ v :: tl) := rfl
        rw [e3, List.drop_succ_cons, List.append_assoc, List.singleton_append]
      · have hlt : buf.length < HISTORY_LEN := Nat.lt_of_not_le hb
        have hpush : pushHistory buf v = buf ++ [v] := by
          simp [pushHistory, hb]
        have hle2 : (buf ++ [v]).length ≤ HISTORY_LEN := by
          simp only [List.length_append, List.length_cons, List.length_nil]
          omega
        rw [List.foldl_cons, hpush, ih (buf ++ [v]) hle2]
        have e1 : (buf ++ [v]).length + tl.length = buf.length + (v :: tl).length := by
          simp only [List.length_append, List.length_cons, List.length_nil]
          omega
        rw [List.append_assoc, List.singleton_append, e1]

/-- C1: for every sequence of pushes into a metric history buffer, the
buffer length never exceeds HISTORY_LEN = 100; the retained contents are
exactly the most recent 100 pushed values in arrival order; and once the
length equals the capacity, a push evicts exactly the single oldest
element and keeps the length at the capacity. -/
theorem history_fifo_law (vals : List F64) :
    (runPushes vals).length ≤ HISTORY_LEN ∧
    runPushes vals = vals.drop (vals.length - HISTORY_LEN) ∧
    (∀ (buf : List F64) (v : F64), buf.length = HISTORY_LEN →
       pushHistory buf v = buf.tail ++ [v] ∧ (pushHistory buf v).length = HISTORY_LEN) := by
  have hmain : runPushes vals = vals.drop (vals.length - HISTORY_LEN) := by
    have h := foldl_pushHistory_eq vals [] (by simp [HISTORY_LEN])
    simpa [runPushes] using h
  refine ⟨?_, hmain, ?_⟩
  · rw [hmain]
    simp only [List.length_drop]
    omega
  · intro buf v hbuf
    have hge : HISTORY_LEN ≤ buf.length := le_of_eq hbuf.symm
    constructor
    · unfold pushHistory
      rw [if_pos hge]
    · cases buf with
      | nil => simp [HISTORY_LEN] at hbuf
      | cons a rest =>
          have h1 : pushHistory (a :: rest) v = rest ++ [v] := by
            unfold pushHistory
            rw [if_pos hge]
            rfl
          rw [h1]
          simp only [List.length_append, List.length_cons, List.length_nil]
          simp only [List.length_cons] at hbuf
          omega

/-- Witness for C1: the FIFO law evaluated at a concrete full buffer and a
concrete push. -/
theorem history_fifo_law_witness :
    pushHistory (List.replicate 100 (F64.finite 0)) (F64.finite 1) =
      (List.replicate 100 (F64.finite 0)).tail ++ [F64.finite 1] :=
  ((history_fifo_law []).2.2 (List.replicate 100 (F64.finite 0)) (F64.finite 1)
    (by simp [HISTORY_LEN])).1

/-- Counterexample for C7: with the configured entity tag GPU 0 substituted
into the scenario, the literal line of the claim carries only 12 tokens
after the first one, so the parser rejects it and the two-line scenario
produces no record at all: the history table stays in its initial state. -/
theorem scenario_spec_line_rejected :
    parse_metric_line "GPU 0 5 10 0 0 0 0 0 0 0 0 0" = none ∧
    ingestLines ["HEADER 1 2 3", "GPU 0 5 10 0 0 0 0 0 0 0 0 0"] = initialHistory := by
  constructor
  · with_unfolding_all decide
  · with_unfolding_all decide

/-- C7 (amended): feeding a header line and then the sample line
GPU 0 5 10 0 0 0 0 0 0 0 0 0 0, which carries the code's 12 metric fields
after the tag GPU 0, produces exactly one accepted record
[5, 10, 0, ..., 0]: the token dropped by the parser is the duplicate
entity id 0 inside the tag, not the first field after the tag, and the
record values land in history indices 0 through 11 in order. -/
theorem end_to_end_scenario :
    parse_metric_line "HEADER 1 2 3" = none ∧
    parse_metric_line "GPU 0 5 10 0 0 0 0 0 0 0 0 0 0" =
      some [F64.finite 5, F64.finite 10, F64.finite 0, F64.finite 0, F64.finite 0, F64.finite 0,
        F64.finite 0, F64.finite 0, F64.finite 0, F64.finite 0, F64.finite 0, F64.finite 0] ∧
    ingestLines ["HEADER 1 2 3", "GPU 0 5 10 0 0 0 0 0 0 0 0 0 0"] =
      [[F64.finite 5], [F64.finite 10], [F64.finite 0], [F64.finite 0], [F64.finite 0],
        [F64.finite 0], [F64.finite 0], [F64.finite 0], [F64.finite 0], [F64.finite 0],
        [F64.finite 0], [F64.finite 0]] := by
  refine ⟨by with_unfolding_all decide, by with_unfolding_all decide, by with_unfolding_all decide⟩

/-- Counterexample for C2: the field inf parses as an f64 (positive
infinity), which is not a finite number, yet the parser accepts the line
and returns a full record instead of rejecting it. -/
theorem parse_accepts_nonfinite_field :
    parseF64 "inf" = some F64.inf ∧
    parse_metric_line "GPU 0 1 inf 1 1 1 1 1 1 1 1 1 1" =
      some [F64.finite 1, F64.inf, F64.finite 1, F64.finite 1, F64.finite 1, F64.finite 1,
        F64.finite 1, F64.finite 1, F64.finite 1, F64.finite 1, F64.finite 1, F64.finite 1] := by
  refine ⟨by with_unfolding_all decide, by with_unfolding_all decide⟩

/-- C8: when logging is requested and the log file cannot be created, the
failing expect runs inside the spawned logger thread, so only that worker
dies; main still reaches the render loop, contradicting the claim that the
whole process aborts.  A per-record write failure leaves the running
worker running, as the claim states. -/
theorem logger_failure_semantics :
    (mainStartup (some "gpu_log.csv") false).entersRenderLoop = true ∧
    (mainStartup (some "gpu_log.csv") false).loggerState = some LoggerState.dead ∧
    (∀ w : Bool, loggerHandleRecord LoggerState.running w = LoggerState.running) :=
  ⟨rfl, rfl, fun _ => rfl⟩

/-- Helper: when the optional function succeeds on every element, filterMap
keeps the whole length. -/
theorem length_filterMap_of_all_isSome {α β : Type} (f : α → Option β) :
    ∀ l : List α, (∀ a ∈ l, (f a).isSome) → (l.filterMap f).length = l.length := by
  intro l
  induction l with
  | nil => intro _; rfl
  | cons a tl ih =>
      intro hall
      have ha : (f a).isSome := hall a (List.mem_cons_self a tl)
      obtain ⟨b, hb⟩ := Option.isSome_iff_exists.mp ha
      rw [List.filterMap_cons_some hb, List.length_cons, List.length_cons,
        ih (fun x hx => hall x (List.mem_cons_of_mem a hx))]

/-- Helper: when the optional function fails on some element, filterMap
strictly shrinks the length. -/
theorem length_filterMap_lt_of_mem_none {α β : Type} (f : α → Option β) :
    ∀ l : List α, (∃ a ∈ l, f a = none) → (l.filterMap f).length < l.length := by
  intro l
  induction l with
  | nil => rintro ⟨a, ha, _⟩; exact absurd ha (List.not_mem_nil a)
  | cons a tl ih =>
      rintro ⟨x, hx, hxn⟩
      rcases List.mem_cons.mp hx with rfl | hxtl
      · rw [List.filterMap_cons_none hxn, List.length_cons]
        exact Nat.lt_succ_of_le (List.length_filterMap_le f tl)
      · cases hfa : f a with
        | none =>
            rw [List.filterMap_cons_none hfa, List.length_cons]
            exact Nat.lt_succ_of_le (List.length_filterMap_le f tl)
        | some b =>
            rw [List.filterMap_cons_some hfa, List.length_cons, List.length_cons]
            exact Nat.succ_lt_succ (ih ⟨x, hxtl, hxn⟩)

/-- C2 (amended): a line with the entity tag GPU 0 and exactly 13
whitespace fields after the leading token, all of which parse as f64
numbers under the Rust float grammar (which also admits infinities and
NaN), yields the record of the last 12 parsed fields in order; a wrong
tag, a wrong field count, or any field that fails to parse yields none,
never a partial record. -/
theorem parse_line_characterization (line : String) :
    ((("GPU 0").data.isPrefixOf line.data) = false → parse_metric_line line = none) ∧
    ((("GPU 0").data.isPrefixOf line.data) = true → (lineFields line).length ≠ 13 →
       parse_metric_line line = none) ∧
    ((("GPU 0").data.isPrefixOf line.data) = true → (lineFields line).length = 13 →
       (∃ t ∈ lineFields line, parseF64 t = none) → parse_metric_line line = none) ∧
    ((("GPU 0").data.isPrefixOf line.data) = true → (lineFields line).length = 13 →
       (∀ t ∈ lineFields line, (parseF64 t).isSome) →
       parse_metric_line line = some (((lineFields line).drop 1).filterMap parseF64) ∧
       (((lineFields line).drop 1).filterMap parseF64).length = 12) := by
  refine ⟨?_, ?_, ?_, ?_⟩
  · intro hp
    simp [parse_metric_line, hp]
  · intro hp hlen
    simp [parse_metric_line, hp, hlen]
  · intro hp hlen hex
    have hlt : ((lineFields line).filterMap parseF64).length < 13 := by
      have := length_filterMap_lt_of_mem_none parseF64 (lineFields line) hex
      omega
    have hne : ¬ ((lineFields line).filterMap parseF64).length = 13 := by omega
    simp [parse_metric_line, hp, hlen, hne]
  · intro hp hlen hall
    have hv : ((lineFields line).filterMap parseF64).length = 13 := by
      rw [length_filterMap_of_all_isSome parseF64 (lineFields line) hall, hlen]
    have hfe : lineFields line ≠ [] := by
      intro hnil
      rw [hnil] at hlen
      simp at hlen
    obtain ⟨t, rest, hcons⟩ := List.exists_cons_of_ne_nil hfe
    have ht : (parseF64 t).isSome := hall t (by rw [hcons]; exact List.mem_cons_self t rest)
    obtain ⟨b, hb⟩ := Option.isSome_iff_exists.mp ht
    have hdrop : ((lineFields line).filterMap parseF64).drop 1 =
        ((lineFields line).drop 1).filterMap parseF64 := by
      rw [hcons, List.filterMap_cons_some hb, List.drop_succ_cons, List.drop_zero,
        List.drop_succ_cons, List.drop_zero]
    constructor
    · simp only [parse_metric_line, hp, hlen, hv, if_true]
      rw [hdrop]
    · rw [← hdrop]
      have : ((lineFields line).filterMap parseF64).length = 13 := hv
      rw [List.length_drop, hv]

/-- Witness for C2: the characterization applied to a concrete well-formed
line with 13 parsable fields after the tag. -/
theorem parse_line_characterization_witness :
    parse_metric_line "GPU 0 1 2 3 4 5 6 7 8 9 10 11 12" =
      some (((lineFields "GPU 0 1 2 3 4 5 6 7 8 9 10 11 12").drop 1).filterMap parseF64) ∧
    (((lineFields "GPU 0 1 2 3 4 5 6 7 8 9 10 11 12").drop 1).filterMap parseF64).length = 12 :=
  (parse_line_characterization "GPU 0 1 2 3 4 5 6 7 8 9 10 11 12").2.2.2
    (by with_unfolding_all decide) (by with_unfolding_all decide)
    (by with_unfolding_all decide)

/-- Helper: F64 multiplication on finite values is rational multiplication. -/
theorem F64.mul_finite (a b : ℚ) : F64.mul (F64.finite a) (F64.finite b) = F64.finite (a * b) := rfl

/-- Helper: F64 addition on finite values is rational addition. -/
theorem F64.add_finite (a b : ℚ) : F64.add (F64.finite a) (F64.finite b) = F64.finite (a + b) := rfl

/-- Helper: F64 order on finite values is the rational order. -/
theorem F64.le_finite (a b : ℚ) :
    F64.le (F64.finite a) (F64.finite b) = true ↔ a ≤ b := by
  simp [F64.le]

/-- Helper: indexing a list of finite values with a finite default. -/
theorem getD_map_finite (vs : List ℚ) :
    ∀ i : ℕ, (vs.map F64.finite).getD i (F64.finite 0) = F64.finite (vs.getD i 0) := by
  induction vs with
  | nil => intro i; simp [List.getD]
  | cons a tl ih =>
      intro i
      cases i with
      | zero => simp [List.getD]
      | succ j => simp [List.getD]

/-- Helper: the percentile rank is never negative. -/
theorem rankOf_nonneg (pct n : ℕ) : 0 ≤ rankOf pct n := by
  unfold rankOf
  positivity

/-- Helper: the source percentile on lists of finite values computes the
rational percentile of the spec algorithm. -/
theorem percentile_map_finite (vs : List ℚ) (pct : ℕ) :
    percentile (vs.map F64.finite) pct = F64.finite (percentileSpec vs pct) := by
  by_cases hvs : vs = []
  · subst hvs
    simp [percentile, percentileSpec]
  · have h1 : 1 ≤ vs.length := List.length_pos.mpr hvs
    have hmapne : (vs.map F64.finite).isEmpty = false := by
      simp [List.isEmpty_iff, hvs]
    have hlen : (vs.map F64.finite).length = vs.length := List.length_map vs F64.finite
    set r : ℚ := (pct : ℚ) / 100 * ((vs.length : ℚ) - 1) with hr
    have hrank : rankOf pct (vs.map F64.finite).length = r := by
      rw [hlen]
      unfold rankOf
      rw [Nat.cast_sub h1]
      norm_num
    have hrnn : 0 ≤ r := by
      rw [← hrank]
      exact rankOf_nonneg pct _
    have hfl : (0 : ℤ) ≤ ⌊r⌋ := Int.floor_nonneg.mpr hrnn
    have hcl : (0 : ℤ) ≤ ⌈r⌉ := Int.ceil_nonneg hrnn
    simp only [percentile, percentileSpec, lowIndex, highIndex, hmapne, Bool.false_eq_true,
      if_false, if_neg hvs, hrank]
    by_cases hif : ⌊r⌋ = ⌈r⌉
    · rw [if_pos (by rw [hif]), if_pos hif, getD_map_finite]
    · have hifn : ¬ (⌊r⌋.toNat = ⌈r⌉.toNat) := by omega
      rw [if_neg hifn, if_neg hif, getD_map_finite, getD_map_finite,
        F64.mul_finite, F64.mul_finite, F64.add_finite]
      have hcast : ((⌊r⌋.toNat : ℕ) : ℚ) = ((⌊r⌋ : ℤ) : ℚ) := by
        exact_mod_cast Int.toNat_of_nonneg hfl
      rw [hcast]

/-- C3: the code percentile refines the spec algorithm: on any list of
finite values it computes rank = (p/100) x (count-1), takes the values at
the floor and ceiling indices and interpolates by the fractional part of
the rank; it returns 0 on an empty input, and on a single-element input it
returns that element for every p. -/
theorem percentile_algorithm_spec (vs : List ℚ) (x : F64) (pct : ℕ) :
    percentile (vs.map F64.finite) pct = F64.finite (percentileSpec vs pct) ∧
    percentile [] pct = F64.finite 0 ∧
    percentile [x] pct = x := by
  refine ⟨percentile_map_finite vs pct, rfl, ?_⟩
  have h0 : rankOf pct 1 = 0 := by
    unfold rankOf
    norm_num
  simp [percentile, lowIndex, highIndex, h0, List.getD]

/-- C10: the floor and ceiling indices of percentile stay within the list
bounds whenever the rank argument is at most 100 and the input is
non-empty; at rank 101 on a two-element list the ceiling index would be 2,
one past the last position; and the render path invokes percentile only
with the ranks 50, 90 and 99. -/
theorem percentile_index_safety :
    (∀ pct n : ℕ, pct ≤ 100 → 0 < n →
       lowIndex pct n ≤ highIndex pct n ∧ highIndex pct n ≤ n - 1) ∧
    highIndex 101 2 = 2 ∧
    2 - 1 < highIndex 101 2 ∧
    (∀ hist : List F64, statsTriple hist =
       (percentile (sortedPositives hist) 50, percentile (sortedPositives hist) 90,
        percentile (sortedPositives hist) 99)) := by
  have hhigh : highIndex 101 2 = 2 := by
    have hr : rankOf 101 2 = 101 / 100 := by
      unfold rankOf
      norm_num
    unfold highIndex
    rw [hr]
    have : (⌈(101 / 100 : ℚ)⌉ : ℤ) = 2 := by
      rw [Int.ceil_eq_iff]
      norm_num
    rw [this]
    rfl
  refine ⟨?_, hhigh, by omega, ?_⟩
  · intro pct n hp hn
    have hr0 : 0 ≤ rankOf pct n := rankOf_nonneg pct n
    have hru : rankOf pct n ≤ ((n - 1 : ℕ) : ℚ) := by
      unfold rankOf
      have h1 : (pct : ℚ) / 100 ≤ 1 := by
        rw [div_le_one (by norm_num)]
        exact_mod_cast hp
      have h2 : (0 : ℚ) ≤ ((n - 1 : ℕ) : ℚ) := by positivity
      calc (pct : ℚ) / 100 * ((n - 1 : ℕ) : ℚ) ≤ 1 * ((n - 1 : ℕ) : ℚ) :=
            mul_le_mul_of_nonneg_right h1 h2
        _ = ((n - 1 : ℕ) : ℚ) := one_mul _
    constructor
    · unfold lowIndex highIndex
      have := Int.floor_le_ceil (rankOf pct n)
      omega
    · unfold highIndex
      have hceil : ⌈rankOf pct n⌉ ≤ ((n - 1 : ℕ) : ℤ) := by
        rw [Int.ceil_le]
        exact_mod_cast hru
      omega
  · intro hist
    by_cases h : sortedPositives hist = []
    · simp [statsTriple, h, percentile]
    · simp [statsTriple, List.isEmpty_iff, h]

/-- Witness for C10: the bounds discipline at the concrete rank 99 on a
five-element history. -/
theorem percentile_index_safety_witness :
    lowIndex 99 5 ≤ highIndex 99 5 ∧ highIndex 99 5 ≤ 4 :=
  percentile_index_safety.1 99 5 (by norm_num) (by norm_num)

/-- C5: the list handed to percentile is exactly the strictly positive
part of the metric history (as a multiset, reordered ascending): it is a
permutation of the positive filter, every element in it is strictly
positive, while a push stores every value, positive or not, into the raw
buffer itself. -/
theorem percentile_input_positives (hist : List F64) :
    List.Perm (sortedPositives hist) (hist.filter (fun v => F64.lt (F64.finite 0) v)) ∧
    (∀ v ∈ sortedPositives hist, F64.lt (F64.finite 0) v = true) ∧
    (∀ (buf : List F64) (v : F64), F64.lt (F64.finite 0) v = false → v ∈ pushHistory buf v) := by
  have hperm : List.Perm (sortedPositives hist)
      (hist.filter (fun v => F64.lt (F64.finite 0) v)) := by
    unfold sortedPositives sortF64
    exact List.perm_insertionSort _ _
  refine ⟨hperm, ?_, ?_⟩
  · intro v hv
    exact (List.mem_filter.mp (hperm.mem_iff.mp hv)).2
  · intro buf v _
    simp [pushHistory]

/-- Witness for C5: a zero sample is excluded from the percentile input
predicate yet still stored by the push. -/
theorem percentile_input_positives_witness :
    F64.finite 0 ∈ pushHistory [] (F64.finite 0) :=
  (percentile_input_positives []).2.2 [] (F64.finite 0) (by with_unfolding_all decide)

/-- Helper: F64 division by a nonzero finite value is rational division. -/
theorem F64.div_finite (a b : ℚ) (hb : b ≠ 0) :
    F64.div (F64.finite a) (F64.finite b) = F64.finite (a / b) := by
  simp [F64.div, hb]

/-- Counterexample for C4: 1023.999 is below the 1024 threshold, so the
formatter keeps the base unit, but rendering with 0 decimals rounds it up
and the output string is exactly 1024 B. -/
theorem format_boundary_counterexample :
    ((1023999 : ℚ) / 1000 < 1024) ∧
    format_bytes_with_unit (F64.finite (1023999 / 1000)) false = "1024 B" :=
  ⟨by norm_num, by with_unfolding_all decide⟩

/-- C4 (amended): the formatter selects the largest power-of-1024 unit
whose threshold the value meets, rendering scaled values with 2 decimal
places and raw-byte values with 0 decimals; 1024.0 renders as 1.00 KB,
while 1023.999 stays in the base unit whose 0-decimal rounding produces
the string 1024 B. -/
theorem format_bytes_characterization (q : ℚ) :
    ((1024 : ℚ) ^ 4 ≤ q →
       format_bytes_with_unit (F64.finite q) false = formatQFixed (q / 1024 ^ 4) 2 ++ " TB") ∧
    ((1024 : ℚ) ^ 3 ≤ q → q < 1024 ^ 4 →
       format_bytes_with_unit (F64.finite q) false = formatQFixed (q / 1024 ^ 3) 2 ++ " GB") ∧
    ((1024 : ℚ) ^ 2 ≤ q → q < 1024 ^ 3 →
       format_bytes_with_unit (F64.finite q) false = formatQFixed (q / 1024 ^ 2) 2 ++ " MB") ∧
    ((1024 : ℚ) ≤ q → q < 1024 ^ 2 →
       format_bytes_with_unit (F64.finite q) false = formatQFixed (q / 1024) 2 ++ " KB") ∧
    (q < 1024 →
       format_bytes_with_unit (F64.finite q) false = formatQFixed q 0 ++ " B") ∧
    ((1024 : ℚ) ≤ q → q < 1024 ^ 2 →
       format_bytes_with_unit (F64.finite q) true = formatQFixed (q / 1024) 2 ++ " KB/s") ∧
    (q < 1024 →
       format_bytes_with_unit (F64.finite q) true = formatQFixed q 0 ++ " B/s") ∧
    format_bytes_with_unit (F64.finite 1024) false = "1.00 KB" ∧
    format_bytes_with_unit (F64.finite (1023999 / 1000)) false = "1024 B" := by
  have e4 : ((1024 : ℚ) * 1024 * 1024 * 1024) = 1024 ^ 4 := by norm_num
  have e3 : ((1024 : ℚ) * 1024 * 1024) = 1024 ^ 3 := by norm_num
  have e2 : ((1024 : ℚ) * 1024) = 1024 ^ 2 := by norm_num
  refine ⟨?_, ?_, ?_, ?_, ?_, ?_, ?_, by with_unfolding_all decide, by with_unfolding_all decide⟩
  · intro h
    simp only [format_bytes_with_unit]
    rw [if_pos ((F64.le_finite _ _).mpr (by rw [e4]; exact h))]
    rw [F64.div_finite _ _ (by norm_num), e4]
    simp [formatF64Fixed]
    rw [String.append_assoc]
    rfl
  · intro hlo hhi
    simp only [format_bytes_with_unit]
    rw [if_neg (fun hb => absurd ((F64.le_finite _ _).mp hb) (not_le.mpr (by rw [e4]; exact hhi))),
      if_pos ((F64.le_finite _ _).mpr (by rw [e3]; exact hlo))]
    rw [F64.div_finite _ _ (by norm_num), e3]
    simp [formatF64Fixed]
    rw [String.append_assoc]
    rfl
  · intro hlo hhi
    simp only [format_bytes_with_unit]
    rw [if_neg (fun hb => absurd ((F64.le_finite _ _).mp hb)
          (not_le.mpr (by rw [e4]; nlinarith))),
      if_neg (fun hb => absurd ((F64.le_finite _ _).mp hb) (not_le.mpr (by rw [e3]; exact hhi))),
      if_pos ((F64.le_finite _ _).mpr (by rw [e2]; exact hlo))]
    rw [F64.div_finite _ _ (by norm_num), e2]
    simp [formatF64Fixed]
    rw [String.append_assoc]
    rfl
  · intro hlo hhi
    simp only [format_bytes_with_unit]
    rw [if_neg (fun hb => absurd ((F64.le_finite _ _).mp hb)
          (not_le.mpr (by rw [e4]; nlinarith))),
      if_neg (fun hb => absurd ((F64.le_finite _ _).mp hb)
          (not_le.mpr (by rw [e3]; nlinarith))),
      if_neg (fun hb => absurd ((F64.le_finite _ _).mp hb) (not_le.mpr (by rw [e2]; exact hhi))),
      if_pos ((F64.le_finite _ _).mpr hlo)]
    rw [F64.div_finite _ _ (by norm_num)]
    simp [formatF64Fixed]
    rw [String.append_assoc]
    rfl
  · intro hhi
    simp only [format_bytes_with_unit]
    rw [if_neg (fun hb => absurd ((F64.le_finite _ _).mp hb)
          (not_le.mpr (by rw [e4]; nlinarith))),
      if_neg (fun hb => absurd ((F64.le_finite _ _).mp hb)
          (not_le.mpr (by rw [e3]; nlinarith))),
      if_neg (fun hb => absurd ((F64.le_finite _ _).mp hb)
          (not_le.mpr (by rw [e2]; nlinarith))),
      if_neg (fun hb => absurd ((F64.le_finite _ _).mp hb) (not_le.mpr hhi))]
    simp [formatF64Fixed]
  · intro hlo hhi
    simp only [format_bytes_with_unit]
    rw [if_neg (fun hb => absurd ((F64.le_finite _ _).mp hb)
          (not_le.mpr (by rw [e4]; nlinarith))),
      if_neg (fun hb => absurd ((F64.le_finite _ _).mp hb)
          (not_le.mpr (by rw [e3]; nlinarith))),
      if_neg (fun hb => absurd ((F64.le_finite _ _).mp hb) (not_le.mpr (by rw [e2]; exact hhi))),
      if_pos ((F64.le_finite _ _).mpr hlo)]
    rw [F64.div_finite _ _ (by norm_num)]
    simp [formatF64Fixed]
    rw [String.append_assoc, String.append_assoc]
    rfl
  · intro hhi
    simp only [format_bytes_with_unit]
    rw [if_neg (fun hb => absurd ((F64.le_finite _ _).mp hb)
          (not_le.mpr (by rw [e4]; nlinarith))),
      if_neg (fun hb => absurd ((F64.le_finite _ _).mp hb)
          (not_le.mpr (by rw [e3]; nlinarith))),
      if_neg (fun hb => absurd ((F64.le_finite _ _).mp hb)
          (not_le.mpr (by rw [e2]; nlinarith))),
      if_neg (fun hb => absurd ((F64.le_finite _ _).mp hb) (not_le.mpr hhi))]
    simp [formatF64Fixed]

/-- Witness for C4: the characterization applied at the concrete values
2048 (KB range) and 5 (byte range). -/
theorem format_bytes_characterization_witness :
    format_bytes_with_unit (F64.finite 2048) false = formatQFixed (2048 / 1024) 2 ++ " KB" ∧
    format_bytes_with_unit (F64.finite 5) false = formatQFixed 5 0 ++ " B" :=
  ⟨(format_bytes_characterization 2048).2.2.2.1 (by norm_num) (by norm_num),
   (format_bytes_characterization 5).2.2.2.2.1 (by norm_num)⟩

/-- Helper: indexing with a default is monotone on a sorted list inside
the bounds. -/
theorem getD_mono_of_sorted (vs : List ℚ) (hs : List.Sorted (fun a b : ℚ => a ≤ b) vs)
    {i j : ℕ} (hij : i ≤ j) (hj : j < vs.length) :
    vs.getD i 0 ≤ vs.getD j 0 := by
  have hi : i < vs.length := lt_of_le_of_lt hij hj
  rw [List.getD_eq_getElem vs 0 hi, List.getD_eq_getElem vs 0 hj]
  rcases Nat.eq_or_lt_of_le hij with rfl | hlt
  · exact le_refl _
  · exact List.pairwise_iff_getElem.mp hs i j hi hj hlt

/-- Helper: a non-empty length bound from the rank range. -/
theorem length_pos_of_rank_le (n : ℕ) (r : ℚ) (h0 : 0 ≤ r) (h1 : r ≤ (n : ℚ) - 1) :
    1 ≤ n := by
  by_contra h
  push_neg at h
  have hn : n = 0 := by omega
  rw [hn] at h1
  norm_num at h1
  linarith

/-- Helper: the interpolated value is at least the value at the floor
index when the fractional index lies in the valid range. -/
theorem interpAt_ge_floor (vs : List ℚ) (hs : List.Sorted (fun a b : ℚ => a ≤ b) vs)
    (r : ℚ) (h0 : 0 ≤ r) (h1 : r ≤ (vs.length : ℚ) - 1) :
    vs.getD (⌊r⌋).toNat 0 ≤ interpAt vs r := by
  have hn : 1 ≤ vs.length := length_pos_of_rank_le vs.length r h0 h1
  have hfl : (0 : ℤ) ≤ ⌊r⌋ := Int.floor_nonneg.mpr h0
  have hw0 : 0 ≤ r - ⌊r⌋ := sub_nonneg.mpr (Int.floor_le r)
  by_cases hend : (⌊r⌋).toNat + 1 < vs.length
  · have hle : vs.getD (⌊r⌋).toNat 0 ≤ vs.getD ((⌊r⌋).toNat + 1) 0 :=
      getD_mono_of_sorted vs hs (Nat.le_succ _) hend
    unfold interpAt
    nlinarith [hw0, hle]
  · have hfn : ⌊r⌋ ≤ (vs.length : ℤ) - 1 := by
      have hq : (⌊r⌋ : ℚ) ≤ (vs.length : ℚ) - 1 := le_trans (Int.floor_le r) h1
      exact_mod_cast hq
    have hz : ⌊r⌋ = (vs.length : ℤ) - 1 := by omega
    have hreq : r = (⌊r⌋ : ℚ) := by
      have h2 : (vs.length : ℚ) - 1 ≤ (⌊r⌋ : ℚ) := by
        rw [hz]
        push_cast
        ring_nf
        exact le_refl _
      exact le_antisymm (le_trans h1 h2) (Int.floor_le r)
    unfold interpAt
    rw [← hreq]
    have : r - r = 0 := sub_self r
    rw [this]
    ring_nf
    exact le_refl _

/-- Helper: the interpolated value is at most the value one past the floor
index when that index is still inside the list. -/
theorem interpAt_le_next (vs : List ℚ) (hs : List.Sorted (fun a b : ℚ => a ≤ b) vs)
    (r : ℚ) (_h0 : 0 ≤ r) (hnext : (⌊r⌋).toNat + 1 < vs.length) :
    interpAt vs r ≤ vs.getD ((⌊r⌋).toNat + 1) 0 := by
  have hw0 : 0 ≤ r - ⌊r⌋ := sub_nonneg.mpr (Int.floor_le r)
  have hw1 : r - ⌊r⌋ < 1 := by
    have := Int.lt_floor_add_one r
    linarith
  have hle : vs.getD (⌊r⌋).toNat 0 ≤ vs.getD ((⌊r⌋).toNat + 1) 0 :=
    getD_mono_of_sorted vs hs (Nat.le_succ _) hnext
  unfold interpAt
  nlinarith [hw0, hw1, hle]

/-- Helper: the interpolation is monotone in the fractional index on a
sorted list. -/
theorem interpAt_mono (vs : List ℚ) (hs : List.Sorted (fun a b : ℚ => a ≤ b) vs)
    (r₁ r₂ : ℚ) (h0 : 0 ≤ r₁) (h12 : r₁ ≤ r₂) (h2 : r₂ ≤ (vs.length : ℚ) - 1) :
    interpAt vs r₁ ≤ interpAt vs r₂ := by
  have h02 : 0 ≤ r₂ := le_trans h0 h12
  have hn : 1 ≤ vs.length := length_pos_of_rank_le vs.length r₂ h02 h2
  have hf1 : (0 : ℤ) ≤ ⌊r₁⌋ := Int.floor_nonneg.mpr h0
  have hf2 : (0 : ℤ) ≤ ⌊r₂⌋ := Int.floor_nonneg.mpr h02
  have hfn : ⌊r₂⌋ ≤ (vs.length : ℤ) - 1 := by
    have hq : (⌊r₂⌋ : ℚ) ≤ (vs.length : ℚ) - 1 := le_trans (Int.floor_le r₂) h2
    exact_mod_cast hq
  have hflle : ⌊r₁⌋ ≤ ⌊r₂⌋ := Int.floor_le_floor h12
  rcases eq_or_lt_of_le hflle with heq | hlt
  · by_cases hend : (⌊r₁⌋).toNat + 1 < vs.length
    · have hle : vs.getD (⌊r₁⌋).toNat 0 ≤ vs.getD ((⌊r₁⌋).toNat + 1) 0 :=
        getD_mono_of_sorted vs hs (Nat.le_succ _) hend
      unfold interpAt
      rw [← heq]
      nlinarith [h12, hle]
    · have hz : ⌊r₁⌋ = (vs.length : ℤ) - 1 := by omega
      have hfloor2 : (vs.length : ℚ) - 1 ≤ (⌊r₂⌋ : ℚ) := by
        rw [← heq, hz]
        push_cast
        ring_nf
        exact le_refl _
      have hr2 : r₂ = (⌊r₂⌋ : ℚ) := le_antisymm (le_trans h2 hfloor2) (Int.floor_le r₂)
      have hr1 : r₁ = (⌊r₁⌋ : ℚ) := by
        have hup : r₁ ≤ (⌊r₁⌋ : ℚ) := by
          rw [heq, ← hr2]
          exact h12
        exact le_antisymm hup (Int.floor_le r₁)
      have hrr : r₁ = r₂ := by
        rw [hr1, hr2, heq]
      rw [hrr]
  · have hnat : (⌊r₁⌋).toNat + 1 ≤ (⌊r₂⌋).toNat := by omega
    have hupper : interpAt vs r₁ ≤ vs.getD ((⌊r₁⌋).toNat + 1) 0 :=
      interpAt_le_next vs hs r₁ h0 (by omega)
    have hmid : vs.getD ((⌊r₁⌋).toNat + 1) 0 ≤ vs.getD ((⌊r₂⌋).toNat) 0 :=
      getD_mono_of_sorted vs hs hnat (by omega)
    have hlower : vs.getD ((⌊r₂⌋).toNat) 0 ≤ interpAt vs r₂ :=
      interpAt_ge_floor vs hs r₂ h02 h2
    linarith

/-- Helper: the branchy spec percentile equals the uniform interpolation
at the rank. -/
theorem percentileSpec_eq_interpAt (vs : List ℚ) (hne : vs ≠ []) (p : ℕ) :
    percentileSpec vs p = interpAt vs ((p : ℚ) / 100 * ((vs.length : ℚ) - 1)) := by
  have hn : 1 ≤ vs.length := List.length_pos.mpr hne
  set r : ℚ := (p : ℚ) / 100 * ((vs.length : ℚ) - 1) with hr
  have h0 : 0 ≤ r := by
    rw [hr]
    have ha : 0 ≤ (p : ℚ) / 100 := by positivity
    have hb : 0 ≤ (vs.length : ℚ) - 1 := by
      have : (1 : ℚ) ≤ (vs.length : ℚ) := by exact_mod_cast hn
      linarith
    exact mul_nonneg ha hb
  have hfl : (0 : ℤ) ≤ ⌊r⌋ := Int.floor_nonneg.mpr h0
  unfold percentileSpec
  rw [if_neg hne]
  by_cases hif : ⌊r⌋ = ⌈r⌉
  · have hreq : (⌊r⌋ : ℚ) = r := by
      have hceil : r ≤ (⌊r⌋ : ℚ) := by
        have := Int.le_ceil r
        rw [hif]
        exact_mod_cast this
      exact le_antisymm (Int.floor_le r) hceil
    rw [if_pos hif]
    unfold interpAt
    rw [hreq]
    have hz : r - r = 0 := sub_self r
    rw [hz]
    ring
  · have hcf : ⌊r⌋ ≤ ⌈r⌉ := Int.floor_le_ceil r
    have hc1 : ⌈r⌉ ≤ ⌊r⌋ + 1 := Int.ceil_le_floor_add_one r
    have hc : ⌈r⌉ = ⌊r⌋ + 1 := by omega
    have htn : (⌈r⌉).toNat = (⌊r⌋).toNat + 1 := by omega
    rw [if_neg hif]
    unfold interpAt
    rw [htn]
    ring

/-- Helper: the spec percentile is monotone in the rank argument on a
sorted non-empty input with ranks at most 100. -/
theorem percentileSpec_mono (vs : List ℚ) (hs : List.Sorted (fun a b : ℚ => a ≤ b) vs)
    (hne : vs ≠ []) (p q : ℕ) (hpq : p ≤ q) (hq : q ≤ 100) :
    percentileSpec vs p ≤ percentileSpec vs q := by
  have hn : 1 ≤ vs.length := List.length_pos.mpr hne
  have hb : 0 ≤ (vs.length : ℚ) - 1 := by
    have : (1 : ℚ) ≤ (vs.length : ℚ) := by exact_mod_cast hn
    linarith
  rw [percentileSpec_eq_interpAt vs hne p, percentileSpec_eq_interpAt vs hne q]
  apply interpAt_mono vs hs
  · positivity
  · have : (p : ℚ) / 100 ≤ (q : ℚ) / 100 := by
      apply div_le_div_of_nonneg_right ?_ (by norm_num)
      exact_mod_cast hpq
    exact mul_le_mul_of_nonneg_right this hb
  · have h1 : (q : ℚ) / 100 ≤ 1 := by
      rw [div_le_one (by norm_num)]
      exact_mod_cast hq
    calc (q : ℚ) / 100 * ((vs.length : ℚ) - 1) ≤ 1 * ((vs.length : ℚ) - 1) :=
          mul_le_mul_of_nonneg_right h1 hb
      _ = (vs.length : ℚ) - 1 := one_mul _

/-- C6: on a fixed non-empty ascending sequence of finite values,
percentile is monotone in the rank argument for ranks within 0..100; in
particular p50 is at most p90, which is at most p99, on the same input. -/
theorem percentile_monotone (vs : List ℚ) (hs : List.Sorted (fun a b : ℚ => a ≤ b) vs)
    (hne : vs ≠ []) (p q : ℕ) (hpq : p ≤ q) (hq : q ≤ 100) :
    F64.le (percentile (vs.map F64.finite) p) (percentile (vs.map F64.finite) q) = true ∧
    F64.le (percentile (vs.map F64.finite) 50) (percentile (vs.map F64.finite) 90) = true ∧
    F64.le (percentile (vs.map F64.finite) 90) (percentile (vs.map F64.finite) 99) = true := by
  have key : ∀ a b : ℕ, a ≤ b → b ≤ 100 →
      F64.le (percentile (vs.map F64.finite) a) (percentile (vs.map F64.finite) b) = true := by
    intro a b hab hb
    rw [percentile_map_finite, percentile_map_finite, F64.le_finite]
    exact percentileSpec_mono vs hs hne a b hab hb
  exact ⟨key p q hpq hq, key 50 90 (by norm_num) (by norm_num),
    key 90 99 (by norm_num) (by norm_num)⟩

/-- Witness for C6: monotonicity at the concrete sorted input 1, 2 with
ranks 50 and 90. -/
theorem percentile_monotone_witness :
    F64.le (percentile ([1, 2].map F64.finite) 50) (percentile ([1, 2].map F64.finite) 90) =
      true :=
  (percentile_monotone [1, 2] (by norm_num [List.sorted_cons]) (by simp) 50 90
    (by norm_num) (by norm_num)).1
